import Mathlib

/-!
# Verification of the biorefinery network-analysis graph builder

A shallow embedding of the core data-transformation functions of the
repository (`src/utils.py`, together with the dispatch logic of
`src/degree_distribution.py` and `src/main.py`), and proofs of the
specification's claims about them.

Python strings are modelled as lists of characters (`Str`), so that the
splitting and stripping performed by the source can be reasoned about
directly.  Python dictionaries (which preserve insertion order) are
modelled as association lists, Python sets as duplicate-free lists built
by `listInsert`, and a raised exception (`KeyError`, `IndexError`,
`raise Exception`) as `none` / `Except.error`.
-/

/-- Python strings, modelled as lists of characters. -/
abbrev Str := List Char

/-- `s.split(sep="; ")`: split a string at every (leftmost-first)
occurrence of the two-character separator `"; "`.  Mirrors Python
`str.split` with an explicit separator: no merging of adjacent
separators, and the empty string yields `[""]`. -/
def splitSemi : Str → List Str
  | [] => [[]]
  | ';' :: ' ' :: rest => [] :: splitSemi rest
  | c :: rest =>
    match splitSemi rest with
    | [] => [[c]]
    | t :: ts => (c :: t) :: ts

/-- `s.strip()`: remove leading and trailing whitespace. -/
def strip (s : Str) : Str :=
  ((s.dropWhile Char.isWhitespace).reverse.dropWhile Char.isWhitespace).reverse

/-- Adding an element to a Python `set`, with the set modelled as a
duplicate-free list in insertion order. -/
def listInsert {α : Type} [DecidableEq α] (l : List α) (a : α) : List α :=
  if a ∈ l then l else l ++ [a]

/-- First-seen-order deduplication of a list (the key order a Python
`dict` or `set` built by repeated insertion ends up with). -/
def firstDedup {α : Type} [DecidableEq α] (l : List α) : List α :=
  l.foldl listInsert []

/-- `d[k] = v` on a Python `dict` modelled as an association list:
overwrite in place when the key is present, append otherwise. -/
def dictInsert {κ β : Type} [DecidableEq κ] (d : List (κ × β)) (k : κ) (v : β) :
    List (κ × β) :=
  if d.any (fun p => p.1 = k) then
    d.map (fun p => if p.1 = k then (k, v) else p)
  else d ++ [(k, v)]

/-- `d[k]` / `k in d` on a Python `dict` modelled as an association
list. -/
def dictLookup {κ β : Type} [DecidableEq κ] (d : List (κ × β)) (k : κ) : Option β :=
  (d.find? (fun p => p.1 = k)).map (fun p => p.2)

/-- One row of the input table: the `Reactant` and `Product` cells. -/
structure DataRow where
  reactant : Str
  product : Str
deriving DecidableEq, Repr

/-- The input table: rows of reactant/product cells, plus the optional
`Number of Reaction Steps` column (`none` when the column is absent). -/
structure DataFrame where
  rows : List DataRow
  steps : Option (List Int)
deriving DecidableEq, Repr

/-- The weight column actually used by `get_edges`: the table's own
column when present, otherwise a column of ones of the table's length
(`utils.py` lines 86-89). -/
def effSteps (df : DataFrame) : List Int :=
  match df.steps with
  | some s => s
  | none => List.replicate df.rows.length 1

/-- The table as it stands after `get_edges` returns: the in-place
column assignment `df["Number of Reaction Steps"] = ones` of
`utils.py` lines 86-89 materialises `effSteps` as the steps column. -/
def get_edges_table_after (df : DataFrame) : DataFrame :=
  { df with steps := some (effSteps df) }

/-- The body of the inner loop of `get_distinct_chemicals`
(`utils.py` lines 69-72): the state is the `nodes` dict and the running
`idx`; an unseen stripped token is appended with the current index. -/
def chemStep (st : List (Str × Nat) × Nat) (chemical : Str) :
    List (Str × Nat) × Nat :=
  if st.1.any (fun p => p.1 = strip chemical) then st
  else (st.1 ++ [(strip chemical, st.2)], st.2 + 1)

/-- `get_distinct_chemicals` (`utils.py` lines 58-73): walk the
`Reactant` column then the `Product` column, split every cell on
`"; "`, and give each not-yet-seen stripped token the next index,
starting from 1. -/
def get_distinct_chemicals (df : DataFrame) : List (Str × Nat) :=
  (((df.rows.map DataRow.reactant) ++ (df.rows.map DataRow.product)).foldl
    (fun st chem_string => (splitSemi chem_string).foldl chemStep st)
    ([], 1)).1

/-- A node of the graph: an integer index (default mode) or a chemical
name (`use_chemical_names=True`). -/
inductive NodeId where
  | idx : Nat → NodeId
  | name : Str → NodeId
deriving DecidableEq, Repr

/-- A weighted edge `(source, target, weight)`. -/
abbrev Edge := NodeId × NodeId × Int

/-- Turn one raw (unstripped) token of a `Reactant`/`Product` cell into
a node: in index mode the token is looked up in the node dictionary
(`nodes[temp]`, a `KeyError` — modelled `none` — when absent); in name
mode the token itself is used. -/
def resolve (nodes : List (Str × Nat)) (use_chemical_names : Bool) (temp : Str) :
    Option NodeId :=
  if use_chemical_names then some (NodeId.name temp)
  else (dictLookup nodes temp).map NodeId.idx

/-- The loop state of `get_edges`: the `added_edges` dict and the
`edges` set. -/
structure EdgeState where
  added_edges : List ((NodeId × NodeId) × Int)
  edges : List Edge
deriving Repr

/-- The body of the innermost loop of `get_edges` (`utils.py` lines
102-109) for one `(react, product)` pair with row weight `z`. -/
def processPair (allow_multiple_edges : Bool) (st : EdgeState)
    (k : NodeId × NodeId) (z : Int) : EdgeState :=
  if allow_multiple_edges then
    { edges := listInsert st.edges (k.1, k.2, z),
      added_edges := dictInsert st.added_edges k z }
  else
    match dictLookup st.added_edges k with
    | some w =>
      if w > z then { st with added_edges := dictInsert st.added_edges k z } else st
    | none => { st with added_edges := dictInsert st.added_edges k z }

/-- The two nested loops of `get_edges` (`utils.py` lines 100-109) over
the resolved reactants and products of one row. -/
def processRow (allow_multiple_edges : Bool) (st : EdgeState)
    (reacts products : List NodeId) (z : Int) : EdgeState :=
  reacts.foldl
    (fun s react =>
      products.foldl (fun s' product => processPair allow_multiple_edges s' (react, product) z) s)
    st

/-- The final re-collection of `edges` from `added_edges` when multiple
edges are disallowed (`utils.py` lines 110-113). -/
def finalEdges (added : List ((NodeId × NodeId) × Int)) : List Edge :=
  added.foldl
    (fun es p => listInsert es (p.1.1, p.1.2, (dictLookup added p.1).getD p.2)) []

/-- `get_edges` (`utils.py` lines 76-114).  A `KeyError` raised by the
node lookup aborts the call; this is modelled by the `Option` monad
(the partially built state is discarded, as the exception discards the
function's locals). -/
def get_edges (df : DataFrame) (nodes : List (Str × Nat))
    (use_chemical_names : Bool := false) (allow_multiple_edges : Bool := true) :
    Option (List Edge) := do
  let st ← (df.rows.zip (effSteps df)).foldlM
    (fun (st : EdgeState) rz => do
      let reacts ← (splitSemi rz.1.reactant).mapM (resolve nodes use_chemical_names)
      let products ← (splitSemi rz.1.product).mapM (resolve nodes use_chemical_names)
      pure (processRow allow_multiple_edges st reacts products rz.2))
    (⟨[], []⟩ : EdgeState)
  if allow_multiple_edges then pure st.edges else pure (finalEdges st.added_edges)

/-- Resolve one row (paired with its weight): the node lists of its
reactant and product tokens, exactly as `get_edges` computes them. -/
def resolveRow (nodes : List (Str × Nat)) (use_chemical_names : Bool)
    (rz : DataRow × Int) : Option ((List NodeId × List NodeId) × Int) := do
  let reacts ← (splitSemi rz.1.reactant).mapM (resolve nodes use_chemical_names)
  let products ← (splitSemi rz.1.product).mapM (resolve nodes use_chemical_names)
  pure ((reacts, products), rz.2)

/-- The resolved rows of the table: for each row paired with its
weight by `zip`, the node lists of its reactant and product tokens. -/
def resolveRows (df : DataFrame) (nodes : List (Str × Nat))
    (use_chemical_names : Bool) :
    Option (List ((List NodeId × List NodeId) × Int)) :=
  (df.rows.zip (effSteps df)).mapM (resolveRow nodes use_chemical_names)

/-- The cross product of one row's reactants and products, keyed pairs
with the row's weight. -/
def rowPairs (reacts products : List NodeId) (z : Int) :
    List ((NodeId × NodeId) × Int) :=
  reacts.flatMap (fun r => products.map (fun p => ((r, p), z)))

/-- Modelled from the spec (§3 Edge, §4.2 step 2): the full
cross-product expansion of the table — every (reactant token, product
token) pair of every row, each inheriting the row's weight.  Used as
the specification against which `get_edges` is compared. -/
def generated (df : DataFrame) (nodes : List (Str × Nat))
    (use_chemical_names : Bool) : Option (List ((NodeId × NodeId) × Int)) :=
  (resolveRows df nodes use_chemical_names).map
    (fun rows => rows.flatMap (fun rp => rowPairs rp.1.1 rp.1.2 rp.2))

/-- Minimum combination of two optional weights. -/
def omin : Option Int → Option Int → Option Int
  | none, b => b
  | some a, none => some a
  | some a, some b => some (min a b)

/-- The minimum weight attached to key `k` in a keyed weight list
(`none` when the key never occurs). -/
def minWeight? (k : NodeId × NodeId) : List ((NodeId × NodeId) × Int) → Option Int
  | [] => none
  | p :: rest => omin (if p.1 = k then some p.2 else none) (minWeight? k rest)

/-- The `added_edges` update performed per pair when multiple edges are
disallowed: keep the smaller of the stored and the incoming weight. -/
def minUpd (d : List ((NodeId × NodeId) × Int)) (k : NodeId × NodeId) (z : Int) :
    List ((NodeId × NodeId) × Int) :=
  match dictLookup d k with
  | some w => if w > z then dictInsert d k z else d
  | none => dictInsert d k z

/-- Flatten a keyed weight into the edge triple format. -/
def flatEdge (p : (NodeId × NodeId) × Int) : Edge :=
  (p.1.1, p.1.2, p.2)

/-- All raw (unstripped) tokens of the table, in the order
`get_distinct_chemicals` visits them: the whole `Reactant` column
first, then the whole `Product` column, each cell split on `"; "`. -/
def allTokensRaw (df : DataFrame) : List Str :=
  ((df.rows.map DataRow.reactant) ++ (df.rows.map DataRow.product)).flatMap splitSemi

/-- The raw tokens of a single row (reactant cell then product cell). -/
def rowTokensAll (row : DataRow) : List Str :=
  splitSemi row.reactant ++ splitSemi row.product

/-- `count_by` (`utils.py` lines 117-135): project the chosen field out
of every tuple (an out-of-range index is an `IndexError`, modelled
`none`), count occurrences into a dict, and return its keys and
values. -/
def count_by (atr_number : Nat) (tuple_list : List (List Int)) :
    Option (List Int × List Nat) := do
  let only_attributes ← tuple_list.mapM (fun element => element[atr_number]?)
  let counter := only_attributes.foldl
    (fun counter x =>
      match dictLookup counter x with
      | some n => dictInsert counter x (n + 1)
      | none => dictInsert counter x 1) []
  pure (counter.map Prod.fst, counter.map Prod.snd)

/-- An `networkx.Graph` instance: node list plus an adjacency map with
one entry per unordered endpoint pair. -/
structure UGraph where
  nodes : List NodeId
  adj : List ((NodeId × NodeId) × Int)
deriving DecidableEq, Repr

/-- Whether two stored endpoint pairs denote the same unordered pair. -/
def sameUPair (p q : NodeId × NodeId) : Bool :=
  decide (p = q) || decide (p = (q.2, q.1))

/-- `Graph.add_edge(u, v, weight=w)` on an undirected simple graph: if
either orientation of the endpoint pair is present its weight is
overwritten, otherwise a new entry is appended. -/
def addWeightedEdge (adj : List ((NodeId × NodeId) × Int)) (e : Edge) :
    List ((NodeId × NodeId) × Int) :=
  if adj.any (fun p => sameUPair p.1 (e.1, e.2.1)) then
    adj.map (fun p => if sameUPair p.1 (e.1, e.2.1) then (p.1, e.2.2) else p)
  else adj ++ [((e.1, e.2.1), e.2.2)]

/-- `create_weighted_undirected_graph` (`utils.py` lines 5-30): extract
the nodes and edges, then build an `nx.Graph` (a simple undirected
graph) from them.  Returns the graph together with the node
dictionary. -/
def create_weighted_undirected_graph (df : DataFrame)
    (use_chemical_names : Bool := false) (allow_multiple_edges : Bool := false) :
    Option (UGraph × List (Str × Nat)) := do
  let nodes := get_distinct_chemicals df
  let edges ← get_edges df nodes use_chemical_names allow_multiple_edges
  let graph : UGraph :=
    { nodes :=
        if use_chemical_names then nodes.map (fun p => NodeId.name p.1)
        else nodes.map (fun p => NodeId.idx p.2),
      adj := edges.foldl addWeightedEdge [] }
  pure (graph, nodes)

/-- The distinct observable actions of `degree_distribution.analyse`
and its plotting helpers. -/
inductive DDAct where
  | bar
  | scatter
  | exponentTotal
  | exponentIn
  | exponentOut
  | comparisonScatter (option : Str)
  | pdfComparison (option : Str)
  | pdfComparisonInOut
deriving DecidableEq, Repr

/-- `create_comparison_scatter_plot_option1`
(`degree_distribution.py` lines 194-223): plots for `"out"` / `"in"`,
raises `Exception("Invalid option provided")` otherwise. -/
def create_comparison_scatter_plot_option1 (option : Str) :
    Except Str (List DDAct) :=
  if option = "out".toList then Except.ok [DDAct.comparisonScatter option]
  else if option = "in".toList then Except.ok [DDAct.comparisonScatter option]
  else Except.error "Invalid option provided".toList

/-- `create_pdf_comparison` (`degree_distribution.py` lines 263-313):
plots for `"out"` / `"in"`, raises `Exception("Invalid option
provided")` otherwise. -/
def create_pdf_comparison (option : Str) : Except Str (List DDAct) :=
  if option = "out".toList then Except.ok [DDAct.pdfComparison option]
  else if option = "in".toList then Except.ok [DDAct.pdfComparison option]
  else Except.error "Invalid option provided".toList

/-- The dispatch of `degree_distribution.analyse`
(`degree_distribution.py` lines 28-46): an `if/elif` chain over
`plot_type`; a string matching no branch falls through and the function
returns performing no plot or calculation. -/
def degree_distribution_analyse (plot_type : Str) : Except Str (List DDAct) :=
  if plot_type = "bar".toList then Except.ok [DDAct.bar]
  else if plot_type = "scatter".toList then Except.ok [DDAct.scatter]
  else if plot_type = "exponent".toList then
    Except.ok [DDAct.exponentTotal, DDAct.exponentIn, DDAct.exponentOut]
  else if plot_type = "scatter_comparison_plot".toList then do
    let a ← create_comparison_scatter_plot_option1 "out".toList
    let b ← create_comparison_scatter_plot_option1 "in".toList
    pure (a ++ b)
  else if plot_type = "distribution_comparison_plot".toList then do
    let a ← create_pdf_comparison "out".toList
    let b ← create_pdf_comparison "in".toList
    pure (a ++ b ++ [DDAct.pdfComparisonInOut])
  else Except.ok []

/-- The distinct observable analysis actions of `main.analyse`. -/
inductive MainAct where
  | graphFragmentationMerged
  | graphFragmentation
  | importantMolecules
  | degreeDistribution (acts : List DDAct)
  | graphProperty
  | graphClusters
  | degreeCorrelation (degree_type : Str)
  | centralPointDominance
  | datasetComparison
deriving DecidableEq, Repr

/-- The dispatch of `main.analyse` (`main.py` lines 74-105): a sequence
of independent `if` statements over `option`, then `return 0`; a string
matching none of them makes the function return normally having
performed no analysis. -/
def main_analyse (option : Str) : Except Str (List MainAct) := do
  let a1 : List MainAct :=
    if option = "merge_and_graph_fragmentation".toList then
      [MainAct.graphFragmentationMerged] else []
  let a2 : List MainAct :=
    if option = "graph_fragmentation".toList then [MainAct.graphFragmentation] else []
  let a3 : List MainAct :=
    if option = "important_molecules".toList then [MainAct.importantMolecules] else []
  let a4 ←
    if option = "degree_distribution".toList then do
      let acts ← degree_distribution_analyse "distribution_comparison_plot".toList
      pure [MainAct.degreeDistribution acts]
    else pure ([] : List MainAct)
  let a5 : List MainAct :=
    if option = "graph_property".toList then [MainAct.graphProperty] else []
  let a6 : List MainAct :=
    if option = "graph_clusters".toList then [MainAct.graphClusters] else []
  let a7 : List MainAct :=
    if option = "degree_correlation".toList then
      [MainAct.degreeCorrelation "out".toList, MainAct.degreeCorrelation "in".toList]
    else []
  let a8 : List MainAct :=
    if option = "central_point_dominance".toList then
      [MainAct.centralPointDominance] else []
  let a9 : List MainAct :=
    if option = "dataset_comparison".toList then [MainAct.datasetComparison] else []
  pure (a1 ++ a2 ++ a3 ++ a4 ++ a5 ++ a6 ++ a7 ++ a8 ++ a9)

/-- A dictionary has pairwise-distinct keys. -/
def keysNodup {κ β : Type} (d : List (κ × β)) : Prop :=
  (d.map Prod.fst).Nodup

section ListDictLemmas

variable {α : Type} [DecidableEq α] {κ β : Type} [DecidableEq κ]

theorem mem_listInsert {l : List α} {a x : α} :
    x ∈ listInsert l a ↔ x ∈ l ∨ x = a := by
  unfold listInsert
  split
  · constructor
    · exact fun h => Or.inl h
    · rintro (h | rfl) <;> assumption
  · simp [List.mem_append]

theorem nodup_listInsert {l : List α} (h : l.Nodup) (a : α) :
    (listInsert l a).Nodup := by
  unfold listInsert
  split
  · exact h
  · rename_i ha
    simp [List.nodup_append, h, ha]

theorem mem_foldl_listInsert {l : List α} {init : List α} {x : α} :
    x ∈ l.foldl listInsert init ↔ x ∈ init ∨ x ∈ l := by
  induction l generalizing init with
  | nil => simp
  | cons a l ih =>
    rw [List.foldl_cons, ih, mem_listInsert]
    simp only [List.mem_cons]
    tauto

theorem nodup_foldl_listInsert {l : List α} {init : List α} (h : init.Nodup) :
    (l.foldl listInsert init).Nodup := by
  induction l generalizing init with
  | nil => exact h
  | cons a l ih => exact ih (nodup_listInsert h a)

theorem mem_firstDedup {l : List α} {x : α} : x ∈ firstDedup l ↔ x ∈ l := by
  unfold firstDedup
  rw [mem_foldl_listInsert]
  exact or_iff_right (List.not_mem_nil x)

theorem nodup_firstDedup (l : List α) : (firstDedup l).Nodup :=
  nodup_foldl_listInsert List.nodup_nil

theorem firstDedup_concat (l : List α) (a : α) :
    firstDedup (l ++ [a]) = listInsert (firstDedup l) a := by
  unfold firstDedup
  rw [List.foldl_append, List.foldl_cons, List.foldl_nil]

theorem foldl_listInsert_of_nodup {l : List α} (h : l.Nodup) :
    ∀ init : List α, (∀ x ∈ l, x ∉ init) → l.foldl listInsert init = init ++ l := by
  induction l with
  | nil => simp
  | cons a l ih =>
    intro init hinit
    rw [List.foldl_cons]
    have ha : a ∉ init := hinit a (List.mem_cons_self a l)
    have : listInsert init a = init ++ [a] := by simp [listInsert, ha]
    rw [this, ih h.of_cons]
    · simp
    · intro x hx
      simp only [List.mem_append, List.mem_singleton]
      rintro (hxi | rfl)
      · exact hinit x (List.mem_cons_of_mem a hx) hxi
      · exact (List.nodup_cons.mp h).1 hx

theorem any_fst_eq {d : List (κ × β)} {k : κ} :
    (d.any (fun p => p.1 = k)) = true ↔ k ∈ d.map Prod.fst := by
  simp only [List.any_eq_true, decide_eq_true_eq, List.mem_map]

theorem dictLookup_nil {k : κ} : dictLookup ([] : List (κ × β)) k = none := rfl

theorem dictLookup_cons {p : κ × β} {d : List (κ × β)} {k : κ} :
    dictLookup (p :: d) k = if p.1 = k then some p.2 else dictLookup d k := by
  unfold dictLookup
  rw [List.find?_cons]
  split
  · simp_all
  · simp_all

theorem dictLookup_isSome_iff {d : List (κ × β)} {k : κ} :
    (dictLookup d k).isSome ↔ k ∈ d.map Prod.fst := by
  induction d with
  | nil => simp [dictLookup_nil]
  | cons p d ih =>
    rw [dictLookup_cons, List.map_cons, List.mem_cons]
    by_cases hp : p.1 = k
    · rw [if_pos hp]
      simp only [Option.isSome_some, true_iff]
      exact Or.inl hp.symm
    · rw [if_neg hp, ih]
      constructor
      · exact Or.inr
      · rintro (rfl | hm)
        · exact absurd rfl hp
        · exact hm

theorem dictLookup_eq_none_iff {d : List (κ × β)} {k : κ} :
    dictLookup d k = none ↔ k ∉ d.map Prod.fst := by
  rw [← dictLookup_isSome_iff, Option.not_isSome_iff_eq_none]

theorem keys_dictInsert (d : List (κ × β)) (k : κ) (v : β) :
    (dictInsert d k v).map Prod.fst = listInsert (d.map Prod.fst) k := by
  unfold dictInsert listInsert
  rcases h : d.any (fun p => p.1 = k) with _ | _
  · have hk : k ∉ d.map Prod.fst := by
      rw [← any_fst_eq]; simp [h]
    simp only [h, Bool.false_eq_true, if_false, List.map_append, List.map_cons,
      List.map_nil]
    rw [if_neg hk]
  · have hk : k ∈ d.map Prod.fst := any_fst_eq.mp h
    simp only [h, if_true, List.map_map]
    rw [if_pos hk]
    apply List.map_congr_left
    intro p _
    by_cases hp : p.1 = k <;> simp [hp]

theorem keysNodup_dictInsert {d : List (κ × β)} (h : keysNodup d) (k : κ) (v : β) :
    keysNodup (dictInsert d k v) := by
  unfold keysNodup
  rw [keys_dictInsert]
  exact nodup_listInsert h k

theorem dictLookup_append_singleton (d : List (κ × β)) (k : κ) (v : β) (k' : κ) :
    dictLookup (d ++ [(k, v)]) k' =
      match dictLookup d k' with
      | some w => some w
      | none => if k = k' then some v else none := by
  induction d with
  | nil =>
    rw [List.nil_append, dictLookup_nil, dictLookup_cons]
    by_cases hk : k = k'
    · rw [if_pos hk, if_pos hk]
    · rw [if_neg hk, if_neg hk, dictLookup_nil]
  | cons p d ih =>
    rw [List.cons_append, dictLookup_cons, dictLookup_cons]
    split
    · rfl
    · exact ih

theorem dictLookup_map_replace_same {d : List (κ × β)} {k : κ} (v : β)
    (h : k ∈ d.map Prod.fst) :
    dictLookup (d.map (fun p => if p.1 = k then (k, v) else p)) k = some v := by
  induction d with
  | nil => simp at h
  | cons p d ih =>
    rw [List.map_cons, dictLookup_cons]
    by_cases hp : p.1 = k
    · simp [hp]
    · simp only [hp, ite_false]
      apply ih
      simp only [List.map_cons, List.mem_cons] at h
      rcases h with h1 | h2
      · exact absurd h1.symm hp
      · exact h2

theorem dictLookup_map_replace_other {d : List (κ × β)} {k : κ} (v : β) {k' : κ}
    (h : k' ≠ k) :
    dictLookup (d.map (fun p => if p.1 = k then (k, v) else p)) k' = dictLookup d k' := by
  induction d with
  | nil => simp [dictLookup_nil]
  | cons p d ih =>
    rw [List.map_cons, dictLookup_cons, dictLookup_cons]
    by_cases hp : p.1 = k
    · have h1 : ¬ (k = k') := fun hh => h hh.symm
      simp [hp, h1, ih]
    · by_cases hq : p.1 = k' <;> simp [hp, hq, h, ih]

theorem dictLookup_dictInsert (d : List (κ × β)) (k : κ) (v : β) (k' : κ) :
    dictLookup (dictInsert d k v) k' = if k' = k then some v else dictLookup d k' := by
  unfold dictInsert
  rcases h : d.any (fun p => p.1 = k) with _ | _
  · have hk : k ∉ d.map Prod.fst := by rw [← any_fst_eq]; simp [h]
    simp only [h, Bool.false_eq_true, if_false]
    rw [dictLookup_append_singleton]
    rcases hl : dictLookup d k' with _ | w
    · by_cases hkk : k' = k
      · subst hkk; simp
      · have h1 : ¬ (k = k') := fun hh => hkk hh.symm
        simp [hkk, h1]
    · by_cases hkk : k' = k
      · exfalso
        subst hkk
        exact hk (dictLookup_isSome_iff.mp (by simp [hl]))
      · simp [hkk]
  · have hk : k ∈ d.map Prod.fst := any_fst_eq.mp h
    simp only [h, if_true]
    by_cases hkk : k' = k
    · subst hkk
      rw [if_pos rfl, dictLookup_map_replace_same v hk]
    · rw [if_neg hkk, dictLookup_map_replace_other v hkk]

theorem dictLookup_eq_of_mem {d : List (κ × β)} (hd : keysNodup d) {p : κ × β}
    (hp : p ∈ d) : dictLookup d p.1 = some p.2 := by
  induction d with
  | nil => simp at hp
  | cons q d ih =>
    unfold keysNodup at hd
    rw [List.map_cons, List.nodup_cons] at hd
    rw [dictLookup_cons]
    rcases List.mem_cons.mp hp with rfl | hp'
    · simp
    · rw [if_neg]
      · exact ih hd.2 hp'
      · intro hq
        exact hd.1 (hq ▸ List.mem_map_of_mem Prod.fst hp')

theorem filter_key_eq {d : List (κ × β)} (hd : keysNodup d) (k : κ) :
    d.filter (fun p => p.1 = k) =
      match dictLookup d k with
      | some w => [(k, w)]
      | none => [] := by
  induction d with
  | nil => simp [dictLookup_nil]
  | cons q d ih =>
    unfold keysNodup at hd
    rw [List.map_cons, List.nodup_cons] at hd
    rw [dictLookup_cons, List.filter_cons]
    by_cases hq : q.1 = k
    · have hnone : dictLookup d k = none := by
        rw [dictLookup_eq_none_iff]
        rw [hq] at hd
        exact hd.1
      have hfil : d.filter (fun p => decide (p.1 = k)) = [] := by
        have hih := ih hd.2
        rw [hnone] at hih
        exact hih
      rw [if_pos (by simp [hq]), if_pos hq, hfil]
      obtain ⟨q1, q2⟩ := q
      simp only at hq
      rw [hq]
    · rw [if_neg (by simp [hq]), if_neg hq]
      exact ih hd.2

end ListDictLemmas

section MinFold

theorem omin_assoc (a b c : Option Int) : omin (omin a b) c = omin a (omin b c) := by
  rcases a with _ | a <;> rcases b with _ | b <;> rcases c with _ | c <;>
    simp [omin, min_assoc]

theorem omin_none_right (a : Option Int) : omin a none = a := by
  rcases a with _ | a <;> rfl

theorem dictLookup_minUpd (d : List ((NodeId × NodeId) × Int)) (k : NodeId × NodeId)
    (z : Int) (k' : NodeId × NodeId) :
    dictLookup (minUpd d k z) k' =
      omin (dictLookup d k') (if k = k' then some z else none) := by
  rcases hl : dictLookup d k with _ | w
  · have hm : minUpd d k z = dictInsert d k z := by
      simp only [minUpd, hl]
    rw [hm, dictLookup_dictInsert]
    by_cases hk : k' = k
    · subst hk
      rw [hl]
      simp [omin]
    · have h1 : ¬ (k = k') := fun hh => hk hh.symm
      rcases dictLookup d k' with _ | w' <;> simp [hk, h1, omin]
  · by_cases hw : w > z
    · have hm : minUpd d k z = dictInsert d k z := by
        simp only [minUpd, hl, if_pos hw]
      rw [hm, dictLookup_dictInsert]
      by_cases hk : k' = k
      · subst hk
        rw [if_pos rfl, if_pos rfl, hl]
        simp only [omin]
        congr 1
        omega
      · have h1 : ¬ (k = k') := fun hh => hk hh.symm
        rw [if_neg hk, if_neg h1]
        rcases dictLookup d k' with _ | w' <;> simp [omin]
    · have hm : minUpd d k z = d := by
        simp only [minUpd, hl, if_neg hw]
      rw [hm]
      by_cases hk : k = k'
      · subst hk
        rw [if_pos rfl, hl]
        simp only [omin]
        congr 1
        omega
      · rw [if_neg hk]
        rcases dictLookup d k' with _ | w' <;> simp [omin]

theorem keysNodup_minUpd {d : List ((NodeId × NodeId) × Int)} (h : keysNodup d)
    (k : NodeId × NodeId) (z : Int) : keysNodup (minUpd d k z) := by
  rcases hl : dictLookup d k with _ | w
  · have hm : minUpd d k z = dictInsert d k z := by simp only [minUpd, hl]
    rw [hm]; exact keysNodup_dictInsert h k z
  · by_cases hw : w > z
    · have hm : minUpd d k z = dictInsert d k z := by
        simp only [minUpd, hl, if_pos hw]
      rw [hm]; exact keysNodup_dictInsert h k z
    · have hm : minUpd d k z = d := by
        simp only [minUpd, hl, if_neg hw]
      rw [hm]; exact h

theorem dictLookup_foldl_minUpd (kzs : List ((NodeId × NodeId) × Int))
    (d : List ((NodeId × NodeId) × Int)) (k : NodeId × NodeId) :
    dictLookup (kzs.foldl (fun d' kz => minUpd d' kz.1 kz.2) d) k =
      omin (dictLookup d k) (minWeight? k kzs) := by
  induction kzs generalizing d with
  | nil => simp [minWeight?, omin_none_right]
  | cons kz rest ih =>
    rw [List.foldl_cons, ih, dictLookup_minUpd]
    show omin (omin _ _) _ = _
    rw [omin_assoc]
    rfl

theorem keysNodup_foldl_minUpd (kzs : List ((NodeId × NodeId) × Int))
    {d : List ((NodeId × NodeId) × Int)} (h : keysNodup d) :
    keysNodup (kzs.foldl (fun d' kz => minUpd d' kz.1 kz.2) d) := by
  induction kzs generalizing d with
  | nil => exact h
  | cons kz rest ih => exact ih (keysNodup_minUpd h kz.1 kz.2)

theorem minWeight?_none_iff (k : NodeId × NodeId)
    (l : List ((NodeId × NodeId) × Int)) :
    minWeight? k l = none ↔ ∀ w, (k, w) ∉ l := by
  induction l with
  | nil => simp [minWeight?]
  | cons p rest ih =>
    unfold minWeight?
    by_cases hp : p.1 = k
    · rcases minWeight? k rest with _ | m <;>
        simp only [hp, ite_true, omin] <;>
        constructor <;> intro hc
      · cases hc
      · exact absurd (hc p.2 (by rw [← hp]; exact List.mem_cons_self p rest)) (by simp [hp])
      · cases hc
      · exact absurd (hc p.2 (by rw [← hp]; exact List.mem_cons_self p rest)) (by simp [hp])
    · simp only [hp, ite_false]
      show minWeight? k rest = none ↔ _
      rw [ih]
      constructor
      · intro hc w hw
        rcases List.mem_cons.mp hw with rfl | hw'
        · exact hp rfl
        · exact hc w hw'
      · intro hc w hw
        exact hc w (List.mem_cons_of_mem p hw)

theorem minWeight?_spec (k : NodeId × NodeId) (l : List ((NodeId × NodeId) × Int))
    (m : Int) (h : minWeight? k l = some m) :
    (k, m) ∈ l ∧ ∀ w, (k, w) ∈ l → m ≤ w := by
  induction l generalizing m with
  | nil => simp [minWeight?] at h
  | cons p rest ih =>
    unfold minWeight? at h
    by_cases hp : p.1 = k
    · rw [if_pos hp] at h
      rcases hr : minWeight? k rest with _ | m'
      · rw [hr] at h
        simp only [omin] at h
        obtain rfl : p.2 = m := by injection h
        have hpk : p = (k, p.2) := by rw [← hp]
        constructor
        · rw [hpk] at *; exact List.mem_cons_self _ _
        · intro w hw
          rcases List.mem_cons.mp hw with heq | hw'
          · rw [← heq]
          · exact absurd hw' (by simpa using (minWeight?_none_iff k rest).mp hr w)
      · rw [hr] at h
        simp only [omin] at h
        obtain rfl : min p.2 m' = m := by injection h
        obtain ⟨hmem', hbound'⟩ := ih m' hr
        constructor
        · rcases min_cases p.2 m' with ⟨hmin, _⟩ | ⟨hmin, _⟩
          · rw [hmin]
            have hpk : p = (k, p.2) := by rw [← hp]
            rw [hpk] at *; exact List.mem_cons_self _ _
          · rw [hmin]
            exact List.mem_cons_of_mem p hmem'
        · intro w hw
          rcases List.mem_cons.mp hw with heq | hw'
          · have : p.2 = w := by rw [← heq]
            rw [← this]
            exact min_le_left _ _
          · exact le_trans (min_le_right _ _) (hbound' w hw')
    · rw [if_neg hp] at h
      simp only [omin] at h
      obtain ⟨hmem', hbound'⟩ := ih m h
      constructor
      · exact List.mem_cons_of_mem p hmem'
      · intro w hw
        rcases List.mem_cons.mp hw with heq | hw'
        · exact absurd (by rw [← heq]) hp
        · exact hbound' w hw'

theorem minWeight?_isSome_of_mem {k : NodeId × NodeId} {w : Int}
    {l : List ((NodeId × NodeId) × Int)} (h : (k, w) ∈ l) :
    ∃ m, minWeight? k l = some m := by
  rcases hr : minWeight? k l with _ | m
  · exact absurd h ((minWeight?_none_iff k l).mp hr w)
  · exact ⟨m, rfl⟩

end MinFold

section EdgeFold

/-- Folding over a flattened list equals the nested fold. -/
theorem foldl_flatMap {α β σ : Type} (f : σ → α → σ) (g : β → List α)
    (l : List β) (init : σ) :
    (l.flatMap g).foldl f init = l.foldl (fun s b => (g b).foldl f s) init := by
  induction l generalizing init with
  | nil => rfl
  | cons b l ih =>
    rw [List.flatMap_cons, List.foldl_append, List.foldl_cons, ih]

theorem processRow_eq_foldl (ame : Bool) (st : EdgeState)
    (reacts products : List NodeId) (z : Int) :
    processRow ame st reacts products z =
      (rowPairs reacts products z).foldl (fun s kz => processPair ame s kz.1 kz.2) st := by
  unfold processRow rowPairs
  rw [foldl_flatMap]
  congr 1
  funext s r
  rw [List.foldl_map]

theorem edges_foldl_processPair_true (kzs : List ((NodeId × NodeId) × Int))
    (st : EdgeState) :
    (kzs.foldl (fun s kz => processPair true s kz.1 kz.2) st).edges =
      kzs.foldl (fun es kz => listInsert es (kz.1.1, kz.1.2, kz.2)) st.edges := by
  induction kzs generalizing st with
  | nil => rfl
  | cons kz rest ih =>
    rw [List.foldl_cons, List.foldl_cons, ih]
    rfl

theorem processPair_false_added (s : EdgeState) (k : NodeId × NodeId) (z : Int) :
    (processPair false s k z).added_edges = minUpd s.added_edges k z := by
  unfold processPair minUpd
  rcases hl : dictLookup s.added_edges k with _ | w
  · simp [hl]
  · simp only [hl]
    by_cases hw : w > z <;> simp [hw]

theorem added_foldl_processPair_false (kzs : List ((NodeId × NodeId) × Int))
    (st : EdgeState) :
    (kzs.foldl (fun s kz => processPair false s kz.1 kz.2) st).added_edges =
      kzs.foldl (fun d kz => minUpd d kz.1 kz.2) st.added_edges := by
  induction kzs generalizing st with
  | nil => rfl
  | cons kz rest ih =>
    rw [List.foldl_cons, List.foldl_cons, ih, processPair_false_added]

theorem foldl_processRow_eq (ame : Bool)
    (rows : List ((List NodeId × List NodeId) × Int)) (st : EdgeState) :
    rows.foldl (fun s rp => processRow ame s rp.1.1 rp.1.2 rp.2) st =
      (rows.flatMap (fun rp => rowPairs rp.1.1 rp.1.2 rp.2)).foldl
        (fun s kz => processPair ame s kz.1 kz.2) st := by
  rw [foldl_flatMap]
  congr 1
  funext s rp
  rw [processRow_eq_foldl]

theorem get_edges_step_eq (nodes : List (Str × Nat)) (ucn ame : Bool)
    (st : EdgeState) (rz : DataRow × Int) :
    (do
      let reacts ← (splitSemi rz.1.reactant).mapM (resolve nodes ucn)
      let products ← (splitSemi rz.1.product).mapM (resolve nodes ucn)
      pure (processRow ame st reacts products rz.2) : Option EdgeState) =
    (resolveRow nodes ucn rz).map
      (fun rp => processRow ame st rp.1.1 rp.1.2 rp.2) := by
  unfold resolveRow
  rcases (splitSemi rz.1.reactant).mapM (resolve nodes ucn) with _ | reacts
  · rfl
  · rcases (splitSemi rz.1.product).mapM (resolve nodes ucn) with _ | products <;> rfl

theorem foldlM_step (nodes : List (Str × Nat)) (ucn ame : Bool)
    (l : List (DataRow × Int)) (st : EdgeState) :
    l.foldlM
      (fun (st : EdgeState) rz => do
        let reacts ← (splitSemi rz.1.reactant).mapM (resolve nodes ucn)
        let products ← (splitSemi rz.1.product).mapM (resolve nodes ucn)
        pure (processRow ame st reacts products rz.2)) st =
      (l.mapM (resolveRow nodes ucn)).map
        (fun rows => rows.foldl (fun s rp => processRow ame s rp.1.1 rp.1.2 rp.2) st) := by
  induction l generalizing st with
  | nil => rfl
  | cons rz l ih =>
    rw [List.foldlM_cons, List.mapM_cons, get_edges_step_eq]
    rcases resolveRow nodes ucn rz with _ | rp
    · rfl
    · simp only [ih]
      rcases hm : l.mapM (resolveRow nodes ucn) with _ | rows
      · rfl
      · rfl

theorem get_edges_eq (df : DataFrame) (nodes : List (Str × Nat)) (ucn ame : Bool) :
    get_edges df nodes ucn ame =
      (resolveRows df nodes ucn).map (fun rows =>
        let st := rows.foldl (fun s rp => processRow ame s rp.1.1 rp.1.2 rp.2)
          (⟨[], []⟩ : EdgeState)
        if ame then st.edges else finalEdges st.added_edges) := by
  unfold get_edges resolveRows
  rw [foldlM_step]
  rcases (df.rows.zip (effSteps df)).mapM (resolveRow nodes ucn) with _ | rows
  · rfl
  · rcases ame <;> rfl

theorem get_edges_isSome_iff (df : DataFrame) (nodes : List (Str × Nat))
    (ucn ame : Bool) :
    (get_edges df nodes ucn ame).isSome ↔ (resolveRows df nodes ucn).isSome := by
  rw [get_edges_eq]
  rcases resolveRows df nodes ucn with _ | rows <;> simp

theorem get_edges_true_char (df : DataFrame) (nodes : List (Str × Nat)) (ucn : Bool)
    {es : List Edge} (h : get_edges df nodes ucn true = some es) :
    ∃ gen, generated df nodes ucn = some gen ∧
      es = gen.foldl (fun acc kz => listInsert acc (kz.1.1, kz.1.2, kz.2)) [] := by
  rw [get_edges_eq] at h
  rcases hres : resolveRows df nodes ucn with _ | rows
  · rw [hres] at h; cases h
  · rw [hres] at h
    refine ⟨rows.flatMap (fun rp => rowPairs rp.1.1 rp.1.2 rp.2), ?_, ?_⟩
    · rw [generated, hres]; rfl
    · obtain rfl := (Option.some.inj h).symm
      show (rows.foldl (fun s rp => processRow true s rp.1.1 rp.1.2 rp.2)
          (⟨[], []⟩ : EdgeState)).edges = _
      rw [foldl_processRow_eq, edges_foldl_processPair_true]

theorem get_edges_false_char (df : DataFrame) (nodes : List (Str × Nat)) (ucn : Bool)
    {es : List Edge} (h : get_edges df nodes ucn false = some es) :
    ∃ gen, generated df nodes ucn = some gen ∧
      es = finalEdges (gen.foldl (fun d kz => minUpd d kz.1 kz.2) []) := by
  rw [get_edges_eq] at h
  rcases hres : resolveRows df nodes ucn with _ | rows
  · rw [hres] at h; cases h
  · rw [hres] at h
    refine ⟨rows.flatMap (fun rp => rowPairs rp.1.1 rp.1.2 rp.2), ?_, ?_⟩
    · rw [generated, hres]; rfl
    · obtain rfl := (Option.some.inj h).symm
      show finalEdges (rows.foldl (fun s rp => processRow false s rp.1.1 rp.1.2 rp.2)
          (⟨[], []⟩ : EdgeState)).added_edges = _
      rw [foldl_processRow_eq, added_foldl_processPair_false]

end EdgeFold

section FinalEdges

theorem flatEdge_injective : Function.Injective flatEdge := by
  intro p q h
  rcases p with ⟨⟨a, b⟩, c⟩
  rcases q with ⟨⟨d, e⟩, f⟩
  simp only [flatEdge, Prod.mk.injEq] at h
  obtain ⟨h1, h2, h3⟩ := h
  subst h1; subst h2; subst h3
  rfl

theorem finalEdges_eq_map {d : List ((NodeId × NodeId) × Int)} (hd : keysNodup d) :
    finalEdges d = d.map flatEdge := by
  unfold finalEdges
  have h1 : d.foldl
      (fun es p => listInsert es (p.1.1, p.1.2, (dictLookup d p.1).getD p.2)) [] =
      d.foldl (fun es p => listInsert es (flatEdge p)) [] := by
    apply List.foldl_ext
    intro es p hp
    rw [dictLookup_eq_of_mem hd hp]
    rfl
  rw [h1]
  have h2 : d.foldl (fun es p => listInsert es (flatEdge p)) [] =
      (d.map flatEdge).foldl listInsert [] := by
    rw [List.foldl_map]
  have hdn : d.Nodup := List.Nodup.of_map Prod.fst hd
  have h3 : (d.map flatEdge).Nodup := hdn.map flatEdge_injective
  rw [h2, foldl_listInsert_of_nodup h3 [] (by intro x _hx hmem; cases hmem)]
  rw [List.nil_append]

end FinalEdges

section MapMLemmas

theorem mapM_some_mem {α β : Type} (f : α → Option β) :
    ∀ {l : List α} {ys : List β}, l.mapM f = some ys → ∀ y ∈ ys, ∃ x ∈ l, f x = some y := by
  intro l
  induction l with
  | nil =>
    intro ys h y hy
    obtain rfl : ([] : List β) = ys := Option.some.inj h
    cases hy
  | cons a l ih =>
    intro ys h y hy
    rw [List.mapM_cons] at h
    rcases ha : f a with _ | b
    · rw [ha] at h; cases h
    · rw [ha] at h
      rcases hm : l.mapM f with _ | bs
      · rw [hm] at h; cases h
      · rw [hm] at h
        obtain rfl : b :: bs = ys := by
          have := h
          simp only [Option.bind_eq_bind, Option.some_bind, Option.map_some] at this
          exact Option.some.inj this
        rcases List.mem_cons.mp hy with rfl | hy'
        · exact ⟨a, List.mem_cons_self a l, ha⟩
        · obtain ⟨x, hx, hfx⟩ := ih hm y hy'
          exact ⟨x, List.mem_cons_of_mem a hx, hfx⟩

theorem mapM_isSome_iff {α β : Type} (f : α → Option β) (l : List α) :
    (l.mapM f).isSome ↔ ∀ x ∈ l, (f x).isSome := by
  induction l with
  | nil =>
    rw [List.mapM_nil]
    simp
  | cons a l ih =>
    rw [List.mapM_cons]
    rcases ha : f a with _ | b
    · constructor
      · intro hc; simp at hc
      · intro hall
        exact absurd (hall a (List.mem_cons_self a l)) (by simp [ha])
    · rcases hm : l.mapM f with _ | bs
      · constructor
        · intro hc; simp at hc
        · intro hall
          have hI := ih.mpr (fun x hx => hall x (List.mem_cons_of_mem a hx))
          rw [hm] at hI
          simp at hI
      · constructor
        · intro _ x hx
          rcases List.mem_cons.mp hx with rfl | hx'
          · simp [ha]
          · exact (ih.mp (by rw [hm]; simp)) x hx'
        · intro _
          simp

end MapMLemmas

section NodeExtraction

theorem gdc_eq_tokens_fold (df : DataFrame) :
    get_distinct_chemicals df = ((allTokensRaw df).foldl chemStep ([], 1)).1 := by
  unfold get_distinct_chemicals allTokensRaw
  rw [foldl_flatMap]

theorem chemStep_fold_char :
    ∀ (l : List Str) (ns : List (Str × Nat)) (idx : Nat),
      idx = ns.length + 1 →
      ns.map Prod.snd = List.range' 1 ns.length →
      (l.foldl chemStep (ns, idx)).1.map Prod.fst =
          (l.map strip).foldl listInsert (ns.map Prod.fst) ∧
        (l.foldl chemStep (ns, idx)).1.map Prod.snd =
          List.range' 1 (l.foldl chemStep (ns, idx)).1.length ∧
        (l.foldl chemStep (ns, idx)).2 = (l.foldl chemStep (ns, idx)).1.length + 1 := by
  intro l
  induction l with
  | nil =>
    intro ns idx hidx hsnd
    refine ⟨rfl, ?_, ?_⟩
    · simpa using hsnd
    · simpa using hidx
  | cons c l ih =>
    intro ns idx hidx hsnd
    rw [List.foldl_cons, List.map_cons, List.foldl_cons]
    by_cases hmem : strip c ∈ ns.map Prod.fst
    · have hstep : chemStep (ns, idx) c = (ns, idx) := by
        unfold chemStep
        rw [if_pos (any_fst_eq.mpr hmem)]
      have hli : listInsert (ns.map Prod.fst) (strip c) = ns.map Prod.fst := by
        unfold listInsert
        rw [if_pos hmem]
      rw [hstep, hli]
      exact ih ns idx hidx hsnd
    · have hstep : chemStep (ns, idx) c = (ns ++ [(strip c, idx)], idx + 1) := by
        unfold chemStep
        rw [if_neg]
        intro hc
        exact hmem (any_fst_eq.mp hc)
      rw [hstep]
      have hlen : (ns ++ [(strip c, idx)]).length = ns.length + 1 := by simp
      have hidx' : idx + 1 = (ns ++ [(strip c, idx)]).length + 1 := by
        rw [hlen, hidx]
      have hsnd' : (ns ++ [(strip c, idx)]).map Prod.snd =
          List.range' 1 (ns ++ [(strip c, idx)]).length := by
        rw [List.map_append, hsnd, hlen, List.range'_1_concat]
        simp [hidx, Nat.add_comm]
      have hfst' : (ns ++ [(strip c, idx)]).map Prod.fst =
          listInsert (ns.map Prod.fst) (strip c) := by
        rw [List.map_append, listInsert, if_neg hmem]
        rfl
      have hres := ih (ns ++ [(strip c, idx)]) (idx + 1) hidx' hsnd'
      rw [← hfst']
      exact hres

/-- C3: `get_distinct_chemicals` returns a mapping whose keys are exactly
the distinct stripped `"; "`-split tokens of the `Reactant` and `Product`
columns in first-seen order, whose values are the consecutive integers
1, 2, …, and in which each distinct name occurs exactly once. -/
theorem get_distinct_chemicals_char (df : DataFrame) :
    (get_distinct_chemicals df).map Prod.fst =
        firstDedup ((allTokensRaw df).map strip) ∧
      (get_distinct_chemicals df).map Prod.snd =
        List.range' 1 (get_distinct_chemicals df).length ∧
      (∀ s : Str, s ∈ (get_distinct_chemicals df).map Prod.fst ↔
        s ∈ (allTokensRaw df).map strip) ∧
      ((get_distinct_chemicals df).map Prod.fst).Nodup := by
  obtain ⟨h1, h2, _⟩ := chemStep_fold_char (allTokensRaw df) [] 1 rfl rfl
  rw [gdc_eq_tokens_fold]
  refine ⟨h1, h2, ?_, ?_⟩
  · intro s
    rw [h1, mem_foldl_listInsert]
    simp
  · rw [h1]
    exact nodup_foldl_listInsert List.nodup_nil

end NodeExtraction

section CountBy

theorem dictLookup_map_graph {α β : Type} [DecidableEq α] (g : α → β)
    (l : List α) (x : α) :
    dictLookup (l.map (fun v => (v, g v))) x = if x ∈ l then some (g x) else none := by
  induction l with
  | nil => simp [dictLookup_nil]
  | cons a l ih =>
    rw [List.map_cons, dictLookup_cons]
    by_cases ha : a = x
    · subst ha
      simp
    · rw [if_neg (show ¬(((a, g a) : α × β).1 = x) from ha), ih]
      have hmem : (x ∈ a :: l) ↔ (x ∈ l) := by
        rw [List.mem_cons]
        constructor
        · rintro (rfl | hx)
          · exact absurd rfl ha
          · exact hx
        · exact Or.inr
      by_cases hx : x ∈ l
      · rw [if_pos hx, if_pos (hmem.mpr hx)]
      · rw [if_neg hx, if_neg (fun hc => hx (hmem.mp hc))]

theorem keys_map_graph {α β : Type} [DecidableEq α] (g : α → β) (l : List α) :
    (l.map (fun v => (v, g v))).map Prod.fst = l := by
  rw [List.map_map]
  exact List.map_id' l

theorem counter_step_char (p : List Int) (x : Int) :
    (match dictLookup ((firstDedup p).map (fun v => (v, p.count v))) x with
      | some n => dictInsert ((firstDedup p).map (fun v => (v, p.count v))) x (n + 1)
      | none => dictInsert ((firstDedup p).map (fun v => (v, p.count v))) x 1) =
    (firstDedup (p ++ [x])).map (fun v => (v, (p ++ [x]).count v)) := by
  by_cases hx : x ∈ p
  · have hxd : x ∈ firstDedup p := mem_firstDedup.mpr hx
    rw [dictLookup_map_graph, if_pos hxd]
    show dictInsert ((firstDedup p).map (fun v => (v, p.count v))) x (p.count x + 1) = _
    have hkeys : x ∈ ((firstDedup p).map (fun v => (v, p.count v))).map Prod.fst := by
      rw [keys_map_graph]
      exact hxd
    unfold dictInsert
    rw [if_pos (any_fst_eq.mpr hkeys)]
    have hfd : firstDedup (p ++ [x]) = firstDedup p := by
      rw [firstDedup_concat]
      unfold listInsert
      rw [if_pos hxd]
    rw [hfd, List.map_map]
    apply List.map_congr_left
    intro v hv
    by_cases hvx : v = x
    · subst hvx
      have hcnt : (p ++ [v]).count v = p.count v + 1 := by
        rw [List.count_append]
        simp
      simp [Function.comp, hcnt]
    · have hcnt : (p ++ [x]).count v = p.count v := by
        rw [List.count_append]
        simp [List.count_singleton', hvx]
      simp [Function.comp, hvx, hcnt]
  · have hxd : x ∉ firstDedup p := fun hc => hx (mem_firstDedup.mp hc)
    rw [dictLookup_map_graph, if_neg hxd]
    show dictInsert ((firstDedup p).map (fun v => (v, p.count v))) x 1 = _
    have hkeys : x ∉ ((firstDedup p).map (fun v => (v, p.count v))).map Prod.fst := by
      rw [keys_map_graph]
      exact hxd
    unfold dictInsert
    rw [if_neg (fun hc => hkeys (any_fst_eq.mp hc))]
    have hfd : firstDedup (p ++ [x]) = firstDedup p ++ [x] := by
      rw [firstDedup_concat]
      unfold listInsert
      rw [if_neg hxd]
    rw [hfd, List.map_append]
    have hlast : ([x].map (fun v => (v, (p ++ [x]).count v))) = [(x, 1)] := by
      have h0 : p.count x = 0 := List.count_eq_zero.mpr hx
      have hcnt : (p ++ [x]).count x = 1 := by
        rw [List.count_append, h0]
        simp
      simp [hcnt, h0]
    rw [hlast]
    congr 1
    apply List.map_congr_left
    intro v hv
    have hvp : v ∈ p := mem_firstDedup.mp hv
    have hvx : ¬(v = x) := fun hc => hx (hc ▸ hvp)
    have hcnt : (p ++ [x]).count v = p.count v := by
      rw [List.count_append]
      simp [List.count_singleton', hvx]
    rw [hcnt]

theorem counter_fold_char :
    ∀ (rest p : List Int),
      rest.foldl
        (fun counter x =>
          match dictLookup counter x with
          | some n => dictInsert counter x (n + 1)
          | none => dictInsert counter x 1)
        ((firstDedup p).map (fun v => (v, p.count v))) =
      (firstDedup (p ++ rest)).map (fun v => (v, (p ++ rest).count v)) := by
  intro rest
  induction rest with
  | nil =>
    intro p
    rw [List.foldl_nil, List.append_nil]
  | cons x rest ih =>
    intro p
    rw [List.foldl_cons, counter_step_char p x]
    have hres := ih (p ++ [x])
    rw [List.append_assoc] at hres
    exact hres

theorem mapM_getElem_eq {l : List (List Int)} {atr : Nat}
    (h : ∀ t ∈ l, atr < t.length) :
    l.mapM (fun t => t[atr]?) = some (l.map (fun t => t[atr]?.getD 0)) := by
  induction l with
  | nil => rfl
  | cons t l ih =>
    rw [List.mapM_cons]
    have ht : t[atr]? = some (t[atr]?.getD 0) := by
      have hlt := h t (List.mem_cons_self t l)
      rw [List.getElem?_eq_getElem hlt]
      rfl
    rw [ht, ih (fun t' ht' => h t' (List.mem_cons_of_mem t ht'))]
    rfl

end CountBy

/-- C7: for a valid field index, `count_by` returns the distinct values of
that field in first-seen order paired with the number of tuples sharing
each value; the empty sequence yields empty outputs; and on
`[(1,0),(2,0),(3,0),(1,1),(2,2)]` grouped by the second element it yields
`{0:3, 1:1, 2:1}`. -/
theorem count_by_char (atr : Nat) (l : List (List Int))
    (h : ∀ t ∈ l, atr < t.length) :
    count_by atr l =
        some (firstDedup (l.map (fun t => t[atr]?.getD 0)),
          (firstDedup (l.map (fun t => t[atr]?.getD 0))).map
            (fun v => (l.map (fun t => t[atr]?.getD 0)).count v)) ∧
      count_by atr ([] : List (List Int)) = some ([], []) ∧
      count_by 1 [[1, 0], [2, 0], [3, 0], [1, 1], [2, 2]] =
        some ([0, 1, 2], [3, 1, 1]) := by
  refine ⟨?_, rfl, by decide⟩
  unfold count_by
  rw [mapM_getElem_eq h]
  have hc : (l.map (fun t => t[atr]?.getD 0)).foldl
      (fun counter x =>
        match dictLookup counter x with
        | some n => dictInsert counter x (n + 1)
        | none => dictInsert counter x 1) [] =
      (firstDedup (([] : List Int) ++ l.map (fun t => t[atr]?.getD 0))).map
        (fun v => (v, (([] : List Int) ++ l.map (fun t => t[atr]?.getD 0)).count v)) :=
    counter_fold_char (l.map (fun t => t[atr]?.getD 0)) []
  rw [List.nil_append] at hc
  show some
      ((((l.map (fun t => t[atr]?.getD 0)).foldl
        (fun counter x =>
          match dictLookup counter x with
          | some n => dictInsert counter x (n + 1)
          | none => dictInsert counter x 1) []).map Prod.fst),
       (((l.map (fun t => t[atr]?.getD 0)).foldl
        (fun counter x =>
          match dictLookup counter x with
          | some n => dictInsert counter x (n + 1)
          | none => dictInsert counter x 1) []).map Prod.snd)) = _
  rw [hc, List.map_map, List.map_map]
  congr 1
  refine Prod.ext ?_ ?_
  · show (firstDedup (l.map (fun t => t[atr]?.getD 0))).map
        (Prod.fst ∘ fun v => (v, (l.map (fun t => t[atr]?.getD 0)).count v)) = _
    exact List.map_id' _
  · rfl

/-- Witness for C7 at the spec's own example list. -/
theorem count_by_char_witness :
    count_by 1 [[1, 0], [2, 0], [3, 0], [1, 1], [2, 2]] =
        some (firstDedup (([[1, 0], [2, 0], [3, 0], [1, 1], [2, 2]] :
              List (List Int)).map (fun t => t[1]?.getD 0)),
          (firstDedup (([[1, 0], [2, 0], [3, 0], [1, 1], [2, 2]] :
              List (List Int)).map (fun t => t[1]?.getD 0))).map
            (fun v => (([[1, 0], [2, 0], [3, 0], [1, 1], [2, 2]] :
              List (List Int)).map (fun t => t[1]?.getD 0)).count v)) :=
  (count_by_char 1 [[1, 0], [2, 0], [3, 0], [1, 1], [2, 2]] (by decide)).1

section UndirectedSimple

theorem sameUPair_iff (p q : NodeId × NodeId) :
    sameUPair p q = true ↔ p = q ∨ p = (q.2, q.1) := by
  unfold sameUPair
  rw [Bool.or_eq_true, decide_eq_true_eq, decide_eq_true_eq]

theorem sameUPair_symm {p q : NodeId × NodeId} (h : sameUPair p q = true) :
    sameUPair q p = true := by
  rw [sameUPair_iff] at h ⊢
  rcases h with rfl | h
  · exact Or.inl rfl
  · right
    rw [h]

theorem sameUPair_trans {p q r : NodeId × NodeId} (h1 : sameUPair p q = true)
    (h2 : sameUPair q r = true) : sameUPair p r = true := by
  rw [sameUPair_iff] at h1 h2 ⊢
  rcases h1 with rfl | h1
  · exact h2
  · rcases h2 with rfl | h2
    · right
      exact h1
    · left
      rw [h1, h2]

theorem addWeightedEdge_pairwise {adj : List ((NodeId × NodeId) × Int)}
    (hp : adj.Pairwise (fun p q => sameUPair p.1 q.1 = false)) (e : Edge) :
    (addWeightedEdge adj e).Pairwise (fun p q => sameUPair p.1 q.1 = false) := by
  unfold addWeightedEdge
  by_cases hmem : (adj.any (fun p => sameUPair p.1 (e.1, e.2.1))) = true
  · rw [if_pos hmem]
    have hkey : ∀ p : (NodeId × NodeId) × Int,
        ((if sameUPair p.1 (e.1, e.2.1) then (p.1, e.2.2) else p) :
          (NodeId × NodeId) × Int).1 = p.1 := by
      intro p
      by_cases hc : sameUPair p.1 (e.1, e.2.1) = true
      · rw [if_pos hc]
      · rw [if_neg hc]
    exact hp.map _ (fun a b hab => by rw [hkey a, hkey b]; exact hab)
  · rw [if_neg hmem]
    rw [List.pairwise_append]
    refine ⟨hp, List.pairwise_singleton _ _, ?_⟩
    intro a ha b hb
    obtain rfl : b = ((e.1, e.2.1), e.2.2) := List.mem_singleton.mp hb
    rcases hc : sameUPair a.1 (e.1, e.2.1) with _ | _
    · rfl
    · exact absurd (List.any_eq_true.mpr ⟨a, ha, hc⟩) hmem

theorem foldl_addWeightedEdge_pairwise (es : List Edge)
    {adj : List ((NodeId × NodeId) × Int)}
    (hp : adj.Pairwise (fun p q => sameUPair p.1 q.1 = false)) :
    (es.foldl addWeightedEdge adj).Pairwise (fun p q => sameUPair p.1 q.1 = false) := by
  induction es generalizing adj with
  | nil => exact hp
  | cons e es ih => exact ih (addWeightedEdge_pairwise hp e)

theorem filter_sameUPair_le_one {adj : List ((NodeId × NodeId) × Int)}
    (hp : adj.Pairwise (fun p q => sameUPair p.1 q.1 = false)) (u v : NodeId) :
    (adj.filter (fun p => sameUPair p.1 (u, v))).length ≤ 1 := by
  induction adj with
  | nil => simp
  | cons a adj ih =>
    rw [List.pairwise_cons] at hp
    rw [List.filter_cons]
    by_cases ha : sameUPair a.1 (u, v) = true
    · rw [if_pos ha]
      have hempty : adj.filter (fun p => sameUPair p.1 (u, v)) = [] := by
        rw [List.filter_eq_nil_iff]
        intro b hb hbp
        have hab : sameUPair a.1 b.1 = true :=
          sameUPair_trans ha (sameUPair_symm hbp)
        rw [hp.1 b hb] at hab
        cases hab
      rw [hempty]
      simp
    · rw [if_neg ha]
      exact ih hp.2

/-- C6: for every table and every flag setting (including
`allow_multiple_edges = true`), the graph built by
`create_weighted_undirected_graph` is simple: its adjacency contains at
most one edge for any unordered pair of nodes. -/
theorem create_weighted_undirected_graph_simple (df : DataFrame) (ucn ame : Bool)
    (G : UGraph) (nd : List (Str × Nat))
    (h : create_weighted_undirected_graph df ucn ame = some (G, nd)) :
    ∀ u v : NodeId, (G.adj.filter (fun p => sameUPair p.1 (u, v))).length ≤ 1 := by
  intro u v
  unfold create_weighted_undirected_graph at h
  simp only [] at h
  rcases he : get_edges df (get_distinct_chemicals df) ucn ame with _ | edges
  · rw [he] at h
    cases h
  · rw [he] at h
    simp only [Option.bind_eq_bind, Option.some_bind] at h
    have hG : G.adj = edges.foldl addWeightedEdge [] := by
      have h2 := (Option.some.inj h)
      exact (congrArg (fun x : UGraph × List (Str × Nat) => x.1.adj) h2).symm
    rw [hG]
    exact filter_sameUPair_le_one
      (foldl_addWeightedEdge_pairwise edges List.Pairwise.nil) u v

/-- Witness for C6: a table whose duplicate-pair rows (multi-edge allowed)
still produce a single adjacency entry for the unordered pair. -/
theorem create_weighted_undirected_graph_simple_witness :
    (([((NodeId.idx 1, NodeId.idx 2), (2 : Int))] :
        List ((NodeId × NodeId) × Int)).filter
      (fun p => sameUPair p.1 (NodeId.idx 1, NodeId.idx 2))).length ≤ 1 :=
  create_weighted_undirected_graph_simple
    ⟨[⟨"a".toList, "b".toList⟩, ⟨"a".toList, "b".toList⟩], some [1, 2]⟩ false true
    ⟨[NodeId.idx 1, NodeId.idx 2], [((NodeId.idx 1, NodeId.idx 2), 2)]⟩
    [("a".toList, 1), ("b".toList, 2)]
    (by rfl) (NodeId.idx 1) (NodeId.idx 2)

end UndirectedSimple

/-- C8: node extraction is deterministic — two runs of
`get_distinct_chemicals` on the same input table yield the identical
name→identifier mapping (same keys, same integers, same order). -/
theorem get_distinct_chemicals_deterministic (df1 df2 : DataFrame) (h : df1 = df2) :
    get_distinct_chemicals df1 = get_distinct_chemicals df2 := by
  rw [h]

/-- Witness for C8 at a concrete table. -/
theorem get_distinct_chemicals_deterministic_witness :
    (⟨[⟨"a; b".toList, "c".toList⟩], none⟩ : DataFrame) =
        ⟨[⟨"a; b".toList, "c".toList⟩], none⟩ ∧
      get_distinct_chemicals ⟨[⟨"a; b".toList, "c".toList⟩], none⟩ =
        get_distinct_chemicals ⟨[⟨"a; b".toList, "c".toList⟩], none⟩ :=
  ⟨rfl, get_distinct_chemicals_deterministic _ _ rfl⟩

/-- C10: when the weight column is absent, `get_edges` leaves the caller's
table with a new `Number of Reaction Steps` column of ones (one per row);
when the column is present the table is unchanged; in all cases the
`Reactant` and `Product` columns are untouched. -/
theorem get_edges_table_after_char (df : DataFrame) :
    (df.steps = none →
      get_edges_table_after df = ⟨df.rows, some (List.replicate df.rows.length 1)⟩) ∧
      (∀ s, df.steps = some s → get_edges_table_after df = df) ∧
      (get_edges_table_after df).rows = df.rows := by
  refine ⟨?_, ?_, rfl⟩
  · intro h
    obtain ⟨rows, steps⟩ := df
    have h' : steps = none := h
    subst h'
    rfl
  · intro s h
    obtain ⟨rows, steps⟩ := df
    have h' : steps = some s := h
    subst h'
    rfl

/-- Witness for C10 at a one-row table without the weight column. -/
theorem get_edges_table_after_char_witness :
    get_edges_table_after ⟨[⟨"a".toList, "b".toList⟩], none⟩ =
      ⟨[⟨"a".toList, "b".toList⟩], some (List.replicate 1 1)⟩ :=
  (get_edges_table_after_char ⟨[⟨"a".toList, "b".toList⟩], none⟩).1 rfl

/-- C4 counterexample: the unknown selector `"bogus"` makes both
`degree_distribution.analyse` and `main.analyse` complete normally having
performed no analysis, instead of signalling an invalid-argument error and
aborting. -/
theorem dispatch_unknown_selector_counterexample :
    degree_distribution_analyse "bogus".toList = Except.ok [] ∧
      main_analyse "bogus".toList = Except.ok [] ∧
      (∀ e, degree_distribution_analyse "bogus".toList ≠ Except.error e) ∧
      (∀ e, main_analyse "bogus".toList ≠ Except.error e) := by
  have h1 : degree_distribution_analyse "bogus".toList = Except.ok [] := by rfl
  have h2 : main_analyse "bogus".toList = Except.ok [] := by rfl
  refine ⟨h1, h2, ?_, ?_⟩
  · intro e he
    rw [h1] at he
    cases he
  · intro e he
    rw [h2] at he
    cases he

/-- C4 amended: an unknown or invalid plot-type selector makes
`degree_distribution.analyse` fall through its `if/elif` chain and complete
without error, performing no plot or calculation; likewise an unknown
analysis option makes `main.analyse` return normally (returning 0) having
performed no analysis.  No invalid-argument error is signalled at these
dispatch points (the inner "in"/"out" helpers are the only places that
raise). -/
theorem dispatch_unknown_selector_no_analysis (s : Str)
    (hdd : s ∉ ["bar".toList, "scatter".toList, "exponent".toList,
      "scatter_comparison_plot".toList, "distribution_comparison_plot".toList])
    (hmain : s ∉ ["merge_and_graph_fragmentation".toList,
      "graph_fragmentation".toList, "important_molecules".toList,
      "degree_distribution".toList, "graph_property".toList,
      "graph_clusters".toList, "degree_correlation".toList,
      "central_point_dominance".toList, "dataset_comparison".toList]) :
    degree_distribution_analyse s = Except.ok [] ∧
      main_analyse s = Except.ok [] := by
  simp only [List.mem_cons, List.not_mem_nil, or_false, not_or] at hdd hmain
  obtain ⟨h1, h2, h3, h4, h5⟩ := hdd
  obtain ⟨g1, g2, g3, g4, g5, g6, g7, g8, g9⟩ := hmain
  constructor
  · unfold degree_distribution_analyse
    rw [if_neg h1, if_neg h2, if_neg h3, if_neg h4, if_neg h5]
  · unfold main_analyse
    rw [if_neg g1, if_neg g2, if_neg g3, if_neg g4, if_neg g5, if_neg g6, if_neg g7,
      if_neg g8, if_neg g9]
    rfl

/-- Witness for the amended C4 at the concrete selector `"bogus"`. -/
theorem dispatch_unknown_selector_no_analysis_witness :
    degree_distribution_analyse "bogus".toList = Except.ok [] ∧
      main_analyse "bogus".toList = Except.ok [] :=
  dispatch_unknown_selector_no_analysis "bogus".toList (by decide) (by decide)

/-- C1: with multiple edges disallowed, every (source, target) pair that the
cross-product expansion generates at least once yields exactly one edge in
the output of `get_edges`, and its weight is the minimum weight over all
rows contributing that pair. -/
theorem get_edges_min_weight_per_pair (df : DataFrame) (nodes : List (Str × Nat))
    (ucn : Bool) (es : List Edge) (gen : List ((NodeId × NodeId) × Int))
    (k : NodeId × NodeId) (m : Int)
    (h : get_edges df nodes ucn false = some es)
    (hg : generated df nodes ucn = some gen)
    (hmem : (k, m) ∈ gen) (hmin : ∀ w, (k, w) ∈ gen → m ≤ w) :
    es.filter (fun t => (t.1, t.2.1) = k) = [(k.1, k.2, m)] := by
  obtain ⟨gen', hg', hes⟩ := get_edges_false_char df nodes ucn h
  rw [hg] at hg'
  have hgg : gen = gen' := Option.some.inj hg'
  subst hgg
  have hnodnil : keysNodup ([] : List ((NodeId × NodeId) × Int)) := by
    unfold keysNodup; simp
  have hnod : keysNodup (gen.foldl (fun d kz => minUpd d kz.1 kz.2) []) :=
    keysNodup_foldl_minUpd gen hnodnil
  have hlook : dictLookup (gen.foldl (fun d kz => minUpd d kz.1 kz.2) []) k =
      minWeight? k gen := by
    rw [dictLookup_foldl_minUpd, dictLookup_nil]
    rfl
  obtain ⟨m0, hm0⟩ := minWeight?_isSome_of_mem hmem
  obtain ⟨hm0mem, hm0min⟩ := minWeight?_spec k gen m0 hm0
  obtain rfl : m0 = m := le_antisymm (hm0min m hmem) (hmin m0 hm0mem)
  rw [hes, finalEdges_eq_map hnod, List.filter_map]
  have hpred : (gen.foldl (fun d kz => minUpd d kz.1 kz.2) []).filter
      ((fun t : Edge => decide ((t.1, t.2.1) = k)) ∘ flatEdge) =
      (gen.foldl (fun d kz => minUpd d kz.1 kz.2) []).filter
        (fun p => decide (p.1 = k)) := by
    apply List.filter_congr
    intro p _
    simp [flatEdge]
  rw [hpred, filter_key_eq hnod k, hlook, hm0]
  rfl

/-- Witness for C1 at the spec's own example: two `(oxygen, oxygen)` rows
with weights 7 and 4 collapse to the single edge of weight 4. -/
theorem get_edges_min_weight_per_pair_witness :
    ([(NodeId.name "oxygen".toList, NodeId.name "oxygen".toList, (4 : Int))].filter
      (fun t => (t.1, t.2.1) =
        (NodeId.name "oxygen".toList, NodeId.name "oxygen".toList))) =
    [(NodeId.name "oxygen".toList, NodeId.name "oxygen".toList, 4)] :=
  get_edges_min_weight_per_pair
    ⟨[⟨"oxygen".toList, "oxygen".toList⟩, ⟨"oxygen".toList, "oxygen".toList⟩],
      some [7, 4]⟩
    [] true
    [(NodeId.name "oxygen".toList, NodeId.name "oxygen".toList, 4)]
    [((NodeId.name "oxygen".toList, NodeId.name "oxygen".toList), 7),
     ((NodeId.name "oxygen".toList, NodeId.name "oxygen".toList), 4)]
    (NodeId.name "oxygen".toList, NodeId.name "oxygen".toList) 4
    (by decide) (by decide) (by decide)
    (by
      intro w hw
      rcases List.mem_cons.mp hw with h1 | h2
      · have hw7 : w = 7 := congrArg Prod.snd h1
        omega
      · rcases List.mem_cons.mp h2 with h3 | h4
        · have hw4 : w = 4 := congrArg Prod.snd h3
          omega
        · cases h4)

/-- C2: with multiple edges allowed, the output of `get_edges` is exactly
the set of (source, target, weight) triples of the cross-product expansion
(each row's reactant×product pairs inheriting the row's weight), duplicates
removed only when the whole triple is identical; and the single row
`("calcium; oxygen; nitrogen", "oxygen; hydrogen")` with default weight
yields exactly the six expected edges. -/
theorem get_edges_multi_edge_cross_product (df : DataFrame)
    (nodes : List (Str × Nat)) (ucn : Bool) (es : List Edge)
    (gen : List ((NodeId × NodeId) × Int))
    (h : get_edges df nodes ucn true = some es)
    (hg : generated df nodes ucn = some gen) :
    (es.Nodup ∧ ∀ t : Edge, t ∈ es ↔ t ∈ gen.map flatEdge) ∧
      get_edges ⟨[⟨"calcium; oxygen; nitrogen".toList, "oxygen; hydrogen".toList⟩], none⟩
        [] true true =
      some [(NodeId.name "calcium".toList, NodeId.name "oxygen".toList, 1),
            (NodeId.name "calcium".toList, NodeId.name "hydrogen".toList, 1),
            (NodeId.name "oxygen".toList, NodeId.name "oxygen".toList, 1),
            (NodeId.name "oxygen".toList, NodeId.name "hydrogen".toList, 1),
            (NodeId.name "nitrogen".toList, NodeId.name "oxygen".toList, 1),
            (NodeId.name "nitrogen".toList, NodeId.name "hydrogen".toList, 1)] := by
  constructor
  · obtain ⟨gen', hg', hes⟩ := get_edges_true_char df nodes ucn h
    rw [hg] at hg'
    have hgg : gen = gen' := Option.some.inj hg'
    subst hgg
    have hfold : gen.foldl (fun acc kz => listInsert acc (kz.1.1, kz.1.2, kz.2)) [] =
        (gen.map flatEdge).foldl listInsert [] := by
      rw [List.foldl_map]
      rfl
    constructor
    · rw [hes, hfold]
      exact nodup_foldl_listInsert List.nodup_nil
    · intro t
      rw [hes, hfold, mem_foldl_listInsert]
      simp
  · decide

theorem generated_weight_one {df : DataFrame} {nodes : List (Str × Nat)} {ucn : Bool}
    (hst : df.steps = none) {gen : List ((NodeId × NodeId) × Int)}
    (hg : generated df nodes ucn = some gen) : ∀ kz ∈ gen, kz.2 = 1 := by
  unfold generated at hg
  rcases hres : resolveRows df nodes ucn with _ | rows
  · rw [hres] at hg; cases hg
  · rw [hres] at hg
    obtain rfl : rows.flatMap (fun rp => rowPairs rp.1.1 rp.1.2 rp.2) = gen :=
      Option.some.inj hg
    intro kz hkz
    rw [List.mem_flatMap] at hkz
    obtain ⟨rp, hrp, hkz'⟩ := hkz
    have hw : kz.2 = rp.2 := by
      unfold rowPairs at hkz'
      rw [List.mem_flatMap] at hkz'
      obtain ⟨r, _, hkz''⟩ := hkz'
      rw [List.mem_map] at hkz''
      obtain ⟨p, _, rfl⟩ := hkz''
      rfl
    unfold resolveRows at hres
    obtain ⟨rz, hrz, hrr⟩ := mapM_some_mem _ hres rp hrp
    have hw2 : rp.2 = rz.2 := by
      unfold resolveRow at hrr
      rcases he1 : (splitSemi rz.1.reactant).mapM (resolve nodes ucn) with _ | reacts
      · rw [he1] at hrr; simp at hrr
      · rw [he1] at hrr
        rcases he2 : (splitSemi rz.1.product).mapM (resolve nodes ucn) with _ | products
        · rw [he2] at hrr; simp at hrr
        · rw [he2] at hrr
          simp only [Option.bind_eq_bind, Option.some_bind] at hrr
          obtain rfl : ((reacts, products), rz.2) = rp := Option.some.inj hrr
          rfl
    have hsteps : effSteps df = List.replicate df.rows.length 1 := by
      unfold effSteps
      rw [hst]
    obtain ⟨r, z⟩ := rz
    have hzmem : z ∈ effSteps df := (List.of_mem_zip hrz).2
    rw [hsteps] at hzmem
    have hz1 : z = 1 := (List.mem_replicate.mp hzmem).2
    rw [hw, hw2, hz1]

/-- C5: a table lacking the `Number of Reaction Steps` column is handled
without error — `get_edges` behaves exactly as on the same table with a
ones column of the table's length — and every edge it outputs has
weight 1. -/
theorem get_edges_missing_weight_column (df : DataFrame) (nodes : List (Str × Nat))
    (ucn ame : Bool) (hst : df.steps = none) :
    get_edges df nodes ucn ame =
      get_edges ⟨df.rows, some (List.replicate df.rows.length 1)⟩ nodes ucn ame ∧
    ∀ es, get_edges df nodes ucn ame = some es → ∀ e ∈ es, e.2.2 = 1 := by
  have hsteps : effSteps df = List.replicate df.rows.length 1 := by
    unfold effSteps
    rw [hst]
  constructor
  · unfold get_edges
    rw [hsteps]
    rfl
  · intro es hes e he
    rcases ame with _ | _
    · obtain ⟨gen, hg, hesf⟩ := get_edges_false_char df nodes ucn hes
      have hnodnil : keysNodup ([] : List ((NodeId × NodeId) × Int)) := by
        unfold keysNodup; simp
      have hnod : keysNodup (gen.foldl (fun d kz => minUpd d kz.1 kz.2) []) :=
        keysNodup_foldl_minUpd gen hnodnil
      rw [hesf, finalEdges_eq_map hnod, List.mem_map] at he
      obtain ⟨p, hp, rfl⟩ := he
      have hlk : dictLookup (gen.foldl (fun d kz => minUpd d kz.1 kz.2) []) p.1 =
          some p.2 := dictLookup_eq_of_mem hnod hp
      rw [dictLookup_foldl_minUpd, dictLookup_nil] at hlk
      have hlk' : minWeight? p.1 gen = some p.2 := hlk
      obtain ⟨hmem, _⟩ := minWeight?_spec p.1 gen p.2 hlk'
      exact generated_weight_one hst hg (p.1, p.2) hmem
    · obtain ⟨gen, hg, hesf⟩ := get_edges_true_char df nodes ucn hes
      have hfold : gen.foldl (fun acc kz => listInsert acc (kz.1.1, kz.1.2, kz.2)) [] =
          (gen.map flatEdge).foldl listInsert [] := by
        rw [List.foldl_map]
        rfl
      rw [hesf, hfold, mem_foldl_listInsert] at he
      rcases he with hc | he'
      · cases hc
      · rw [List.mem_map] at he'
        obtain ⟨p, hp, rfl⟩ := he'
        exact generated_weight_one hst hg p hp

/-- Witness for C5: a one-row table with no weight column; the output
edge weights are 1 and the call equals the ones-column call. -/
theorem get_edges_missing_weight_column_witness :
    (get_edges ⟨[⟨"a".toList, "b".toList⟩], none⟩ [] true true =
      get_edges ⟨[⟨"a".toList, "b".toList⟩], some (List.replicate 1 1)⟩ [] true true) ∧
    ∀ es, get_edges ⟨[⟨"a".toList, "b".toList⟩], none⟩ [] true true = some es →
      ∀ e ∈ es, e.2.2 = 1 :=
  get_edges_missing_weight_column ⟨[⟨"a".toList, "b".toList⟩], none⟩ [] true true rfl

/-- Witness for C2 at a two-row table containing a duplicate triple and a
self-loop. -/
theorem get_edges_multi_edge_cross_product_witness :
    (([(NodeId.name "a".toList, NodeId.name "a".toList, (2 : Int)),
       (NodeId.name "a".toList, NodeId.name "b".toList, 2)] : List Edge).Nodup ∧
      ∀ t : Edge,
        t ∈ ([(NodeId.name "a".toList, NodeId.name "a".toList, (2 : Int)),
              (NodeId.name "a".toList, NodeId.name "b".toList, 2)] : List Edge) ↔
        t ∈ ([((NodeId.name "a".toList, NodeId.name "a".toList), (2 : Int)),
              ((NodeId.name "a".toList, NodeId.name "b".toList), 2),
              ((NodeId.name "a".toList, NodeId.name "a".toList), 2)].map flatEdge)) ∧
      get_edges ⟨[⟨"calcium; oxygen; nitrogen".toList, "oxygen; hydrogen".toList⟩], none⟩
        [] true true =
      some [(NodeId.name "calcium".toList, NodeId.name "oxygen".toList, 1),
            (NodeId.name "calcium".toList, NodeId.name "hydrogen".toList, 1),
            (NodeId.name "oxygen".toList, NodeId.name "oxygen".toList, 1),
            (NodeId.name "oxygen".toList, NodeId.name "hydrogen".toList, 1),
            (NodeId.name "nitrogen".toList, NodeId.name "oxygen".toList, 1),
            (NodeId.name "nitrogen".toList, NodeId.name "hydrogen".toList, 1)] :=
  get_edges_multi_edge_cross_product
    ⟨[⟨"a".toList, "a; b".toList⟩, ⟨"a".toList, "a".toList⟩], some [2, 2]⟩
    [] true
    [(NodeId.name "a".toList, NodeId.name "a".toList, 2),
     (NodeId.name "a".toList, NodeId.name "b".toList, 2)]
    [((NodeId.name "a".toList, NodeId.name "a".toList), 2),
     ((NodeId.name "a".toList, NodeId.name "b".toList), 2),
     ((NodeId.name "a".toList, NodeId.name "a".toList), 2)]
    (by decide) (by decide)

section RawTokenLookup

theorem strip_eq_rdrop (s : Str) :
    strip s = List.rdropWhile Char.isWhitespace (s.dropWhile Char.isWhitespace) := rfl

theorem strip_head_clean (s : Str) :
    (List.rdropWhile Char.isWhitespace (s.dropWhile Char.isWhitespace)).dropWhile
        Char.isWhitespace =
      List.rdropWhile Char.isWhitespace (s.dropWhile Char.isWhitespace) := by
  rcases ht : List.rdropWhile Char.isWhitespace (s.dropWhile Char.isWhitespace)
    with _ | ⟨a, t'⟩
  · rfl
  · obtain ⟨r, hr⟩ :=
      List.rdropWhile_prefix Char.isWhitespace (s.dropWhile Char.isWhitespace)
    rw [ht] at hr
    have hs : s.dropWhile Char.isWhitespace = a :: (t' ++ r) := by
      rw [← hr]
      rfl
    have hwa := List.head?_dropWhile_not Char.isWhitespace s
    rw [hs] at hwa
    have hwa' : Char.isWhitespace a = false := hwa
    exact List.dropWhile_cons_of_neg (by simp [hwa'])

theorem strip_idempotent (s : Str) : strip (strip s) = strip s := by
  rw [strip_eq_rdrop (strip s), strip_eq_rdrop s, strip_head_clean,
    List.rdropWhile_idempotent]

theorem gdc_keys_stripped (df : DataFrame) :
    ∀ k ∈ (get_distinct_chemicals df).map Prod.fst, strip k = k := by
  intro k hk
  obtain ⟨h1, _, _, _⟩ := get_distinct_chemicals_char df
  rw [h1, mem_firstDedup, List.mem_map] at hk
  obtain ⟨c, _, rfl⟩ := hk
  exact strip_idempotent c

theorem resolve_false_isSome (nodes : List (Str × Nat)) (t : Str) :
    (resolve nodes false t).isSome ↔ (dictLookup nodes t).isSome := by
  show ((dictLookup nodes t).map NodeId.idx).isSome ↔ _
  rcases dictLookup nodes t with _ | v <;> simp

theorem resolveRow_isSome_iff (nodes : List (Str × Nat)) (row : DataRow) (z : Int) :
    (resolveRow nodes false (row, z)).isSome ↔
      ∀ t ∈ rowTokensAll row, (dictLookup nodes t).isSome := by
  unfold resolveRow rowTokensAll
  rcases he1 : (splitSemi row.reactant).mapM (resolve nodes false) with _ | reacts
  · have h1 := (mapM_isSome_iff (resolve nodes false) (splitSemi row.reactant))
    rw [he1] at h1
    simp only [Option.isSome_none, Bool.false_eq_true, false_iff] at h1
    push_neg at h1
    obtain ⟨t, ht, hres⟩ := h1
    constructor
    · intro hc
      simp at hc
    · intro hall
      have := hall t (List.mem_append_left _ ht)
      rw [← resolve_false_isSome] at this
      exact absurd this (by simp [hres])
  · rcases he2 : (splitSemi row.product).mapM (resolve nodes false) with _ | products
    · have h2 := (mapM_isSome_iff (resolve nodes false) (splitSemi row.product))
      rw [he2] at h2
      simp only [Option.isSome_none, Bool.false_eq_true, false_iff] at h2
      push_neg at h2
      obtain ⟨t, ht, hres⟩ := h2
      constructor
      · intro hc
        simp at hc
      · intro hall
        have := hall t (List.mem_append_right _ ht)
        rw [← resolve_false_isSome] at this
        exact absurd this (by simp [hres])
    · constructor
      · intro _ t ht
        rw [← resolve_false_isSome]
        rcases List.mem_append.mp ht with htr | htp
        · exact (mapM_isSome_iff (resolve nodes false) (splitSemi row.reactant)).mp
            (by rw [he1]; rfl) t htr
        · exact (mapM_isSome_iff (resolve nodes false) (splitSemi row.product)).mp
            (by rw [he2]; rfl) t htp
      · intro _
        simp

/-- C9: in index-keyed mode `get_edges` looks the raw, unstripped tokens up
in the stripped-key node mapping: when every token of the table equals its
stripped form the call succeeds, while any token occurring in a processed
row whose stripped form differs (surrounding whitespace) is a missing key —
its lookup fails and the call raises instead of resolving to the stripped
node. -/
theorem get_edges_raw_token_lookup (df : DataFrame) (ame : Bool) :
    ((∀ row ∈ df.rows, ∀ t ∈ rowTokensAll row, strip t = t) →
      (get_edges df (get_distinct_chemicals df) false ame).isSome) ∧
      (∀ row z t, (row, z) ∈ df.rows.zip (effSteps df) → t ∈ rowTokensAll row →
        strip t ≠ t →
        dictLookup (get_distinct_chemicals df) t = none ∧
          get_edges df (get_distinct_chemicals df) false ame = none) := by
  constructor
  · intro hall
    rw [get_edges_isSome_iff]
    unfold resolveRows
    rw [mapM_isSome_iff]
    intro rz hrz
    obtain ⟨row, z⟩ := rz
    have hrow : row ∈ df.rows := (List.of_mem_zip hrz).1
    rw [resolveRow_isSome_iff]
    intro t ht
    rw [dictLookup_isSome_iff]
    obtain ⟨_, _, hmem, _⟩ := get_distinct_chemicals_char df
    rw [hmem, List.mem_map]
    refine ⟨t, ?_, hall row hrow t ht⟩
    unfold allTokensRaw
    rw [List.mem_flatMap]
    unfold rowTokensAll at ht
    rcases List.mem_append.mp ht with htr | htp
    · exact ⟨row.reactant,
        List.mem_append_left _ (List.mem_map_of_mem DataRow.reactant hrow), htr⟩
    · exact ⟨row.product,
        List.mem_append_right _ (List.mem_map_of_mem DataRow.product hrow), htp⟩
  · intro row z t hrz ht hns
    have hlookup : dictLookup (get_distinct_chemicals df) t = none := by
      rw [dictLookup_eq_none_iff]
      intro hk
      exact hns (gdc_keys_stripped df t hk)
    refine ⟨hlookup, ?_⟩
    rw [← Option.not_isSome_iff_eq_none]
    intro hsome
    rw [get_edges_isSome_iff] at hsome
    unfold resolveRows at hsome
    rw [mapM_isSome_iff] at hsome
    have hrr := hsome (row, z) hrz
    rw [resolveRow_isSome_iff] at hrr
    have := hrr t ht
    rw [hlookup] at this
    simp at this

/-- Witness for C9 forward direction at a clean one-row table, plus the
backward direction exercised at a table with a padded token. -/
theorem get_edges_raw_token_lookup_witness :
    (get_edges ⟨[⟨"a; b".toList, "c".toList⟩], none⟩
        (get_distinct_chemicals ⟨[⟨"a; b".toList, "c".toList⟩], none⟩)
        false true).isSome ∧
      dictLookup
          (get_distinct_chemicals ⟨[⟨"a;  b".toList, "c".toList⟩], none⟩)
          " b".toList = none ∧
        get_edges ⟨[⟨"a;  b".toList, "c".toList⟩], none⟩
          (get_distinct_chemicals ⟨[⟨"a;  b".toList, "c".toList⟩], none⟩)
          false true = none := by
  refine ⟨?_, ?_⟩
  · exact (get_edges_raw_token_lookup ⟨[⟨"a; b".toList, "c".toList⟩], none⟩ true).1
      (by decide)
  · exact (get_edges_raw_token_lookup ⟨[⟨"a;  b".toList, "c".toList⟩], none⟩ true).2
      ⟨"a;  b".toList, "c".toList⟩ 1 " b".toList (by decide) (by decide) (by decide)

end RawTokenLookup

example : splitSemi "calcium; oxygen; nitrogen".toList =
    ["calcium".toList, "oxygen".toList, "nitrogen".toList] := by decide

example : strip "  ab c ".toList = "ab c".toList := by decide

example :
    get_distinct_chemicals
      ⟨[⟨"calcium; oxygen; nitrogen".toList, "oxygen; hydrogen".toList⟩], none⟩ =
    [("calcium".toList, 1), ("oxygen".toList, 2), ("nitrogen".toList, 3),
     ("hydrogen".toList, 4)] := by decide

example :
    get_edges ⟨[⟨"calcium; oxygen; nitrogen".toList, "oxygen; hydrogen".toList⟩], none⟩
      [] true true =
    some [(NodeId.name "calcium".toList, NodeId.name "oxygen".toList, 1),
          (NodeId.name "calcium".toList, NodeId.name "hydrogen".toList, 1),
          (NodeId.name "oxygen".toList, NodeId.name "oxygen".toList, 1),
          (NodeId.name "oxygen".toList, NodeId.name "hydrogen".toList, 1),
          (NodeId.name "nitrogen".toList, NodeId.name "oxygen".toList, 1),
          (NodeId.name "nitrogen".toList, NodeId.name "hydrogen".toList, 1)] := by decide

example :
    get_edges ⟨[⟨"oxygen".toList, "oxygen".toList⟩, ⟨"oxygen".toList, "oxygen".toList⟩],
      some [7, 4]⟩ [] true false =
    some [(NodeId.name "oxygen".toList, NodeId.name "oxygen".toList, 4)] := by decide
